import Mathlib

/-! # DoXOR: a verification development

Shallow embedding of `src/DoXOR.cpp`, the XOR block checksum utility, and
theorems about it.

Modelling conventions.

* `unsigned char` is `Byte = Fin 256`; `^` on two bytes, stored back into an
  `unsigned char`, is `Nat` xor taken `% 256` (`Byte.xor`).
* `std::vector<unsigned char>` is `List Byte`, `std::string` is `List Char`;
  `s[n]` for `n = s.size()` is the terminating NUL, as `std::string` defines it.
* The file system is seen through one file: `none` when it cannot be opened,
  `some bytes` when it can. An open `std::ifstream` is its unread bytes
  together with its fail bit; the stream never throws (its exception mask is
  the default one), so the `catch` clauses of `LoadFileBlocks` are not reached.
* `std::streampos` arithmetic is signed: the remaining length is an `Int`.
* Text written to `std::cout` is not modelled.
-/

set_option maxRecDepth 100000

namespace DoXORTool

/-! ## Data model -/

/-- An `unsigned char`. -/
abbrev Byte := Fin 256

/-- A `std::vector<unsigned char>`. -/
abbrev Block := List Byte

/-- A `std::string`. -/
abbrev CppString := List Char

/-- `#define BLOCKSIZE (64)` -/
abbrev BLOCKSIZE : Nat := 64

/-- `#define XOR_SIZE (128)` -/
abbrev XOR_SIZE : Nat := 128

/-- `#define XOR_SUCCESS (0)` -/
abbrev XOR_SUCCESS : Nat := 0

/-- `#define XOR_INVALID_PARAM (1)` -/
abbrev XOR_INVALID_PARAM : Nat := 1

/-- `#define XOR_FILE_PROC_ERROR (2)` -/
abbrev XOR_FILE_PROC_ERROR : Nat := 2

/-- `#define XOR_INCORRECT_FILE (3)` -/
abbrev XOR_INCORRECT_FILE : Nat := 3

/-- The pad byte `'#'`, `0x23`. -/
def padByte : Byte := 0x23

/-- The NUL character that terminates a string. -/
def NUL : Char := Char.ofNat 0

/-- The expression `block1[cnt] ^ block2[cnt]` stored into an `unsigned char`. -/
def Byte.xor (a b : Byte) : Byte := ⟨(a.val ^^^ b.val) % 256, Nat.mod_lt _ (by decide)⟩

/-- The expression `s[n]` on a `std::string`: the character at `n`, and NUL at `n = s.size()`. -/
def CppString.at (s : CppString) (n : Nat) : Char := s.getD n NUL

/-! ## `to_hex_string` -/

/-- The table `lut = "0123456789ABCDEF"`. -/
def lut : List Char := "0123456789ABCDEF".toList

/-- The expression `lut[k]`. -/
def lutAt (k : Nat) : Char := lut.getD k NUL

/-- Embedding of `to_hex_string` (source lines 80-94): for each byte `c` push `lut[c >> 4]`, then
`lut[c & 15]`. -/
def to_hex_string : Block → CppString
  | [] => []
  | c :: rest => lutAt (c.val >>> 4) :: lutAt (c.val &&& 15) :: to_hex_string rest

/-! ## `DoXOR` and `ProcessFileBlocks` -/

/-- Embedding of `DoXOR` (source lines 106-122): the bytes `block1[cnt] ^ block2[cnt]` for `cnt`
below the smaller of the two sizes. -/
def DoXOR (block1 block2 : Block) : Block :=
  List.zipWith Byte.xor block1 block2

/-- Embedding of `ProcessFileBlocks` (source lines 222-232): starting from `BLOCKSIZE` pad bytes,
`resultBlock = DoXOR(resultBlock, block)` for each block in order. -/
def ProcessFileBlocks (blocks : List Block) : Block :=
  blocks.foldl DoXOR (List.replicate BLOCKSIZE padByte)

/-! ## `LoadFileBlocks` -/

/-- An open `std::ifstream`: the bytes from the read position to the end of the file, and the
fail bit. -/
structure IStream where
  rest : List Byte
  fail : Bool
deriving DecidableEq

/-- The call `is.read(buf, n)`: when the stream is good, the next `n` bytes (or as many as are
left) overwrite the front of `buf`; reading fewer than `n` sets the fail bit. A failed stream
reads nothing. -/
def IStream.read (is : IStream) (buf : Block) (n : Nat) : IStream × Block :=
  if is.fail then (is, buf)
  else
    let got := is.rest.take n
    (⟨is.rest.drop n, decide (got.length < n)⟩, got ++ buf.drop got.length)

/-- The loop `while (length >= 0)` of `LoadFileBlocks` (source lines 160-170): a fresh block of
`BLOCKSIZE` pad bytes receives `toRead` bytes of the stream and is pushed; `length` drops by
`BLOCKSIZE`. -/
def readLoop (is : IStream) (length : Int) (blocks : List Block) : List Block :=
  if _h : 0 ≤ length then
    let block : Block := List.replicate BLOCKSIZE padByte
    let toRead : Int := if length > BLOCKSIZE then (BLOCKSIZE : Int) else length
    let r := is.read block toRead.toNat
    readLoop r.1 (length - BLOCKSIZE) (blocks ++ [r.2])
  else blocks
termination_by (length + 1).toNat
decreasing_by
  have hb : ((BLOCKSIZE : Nat) : Int) = 64 := rfl
  omega

/-- Embedding of `LoadFileBlocks` (source lines 137-211). `file` is `none` when the file cannot be
opened; `blocks` is the output vector as the caller passes it. Returns the status and the output
vector. -/
def LoadFileBlocks (file : Option (List Byte)) (blocks : List Block) : Nat × List Block :=
  match file with
  | none => (XOR_FILE_PROC_ERROR, blocks)
  | some bytes =>
    let length : Int := bytes.length
    if length > BLOCKSIZE then
      (XOR_SUCCESS, readLoop ⟨bytes, false⟩ length blocks)
    else
      (XOR_FILE_PROC_ERROR, blocks)

/-! ## `GenerateXORCheckingData` and `CheckFileContent` -/

/-- The part of `GenerateXORCheckingData` after `ProcessFileBlocks` (source lines 260-269): the
size check on the result block, then the conversion. -/
def checkResultBlock (result : Block) : CppString × Nat :=
  if result.length ≠ BLOCKSIZE then ([], XOR_FILE_PROC_ERROR)
  else (to_hex_string result, XOR_SUCCESS)

/-- Embedding of `GenerateXORCheckingData` (source lines 249-270). -/
def GenerateXORCheckingData (file : Option (List Byte)) : CppString × Nat :=
  let r := LoadFileBlocks file []
  if r.1 ≠ XOR_SUCCESS then ([], r.1)
  else checkResultBlock (ProcessFileBlocks r.2)

/-- The `for` loop of `CheckFileContent` (source lines 294-302). The list is what the iterator
`it` has not visited yet; the result is `res` and `cnt` when the loop is left. -/
def compareLoop (checkingData : CppString) : CppString → Nat → Nat × Nat
  | [], cnt => (XOR_SUCCESS, cnt)
  | c :: it, cnt =>
    if checkingData.at cnt = NUL then (XOR_SUCCESS, cnt)
    else if c ≠ checkingData.at cnt then (XOR_INCORRECT_FILE, cnt)
    else compareLoop checkingData it (cnt + 1)

/-- Embedding of `CheckFileContent` (source lines 287-318). -/
def CheckFileContent (file : Option (List Byte)) (checkingData : CppString) : Nat :=
  let result := GenerateXORCheckingData file
  let res := result.2
  if res = XOR_SUCCESS then
    let r := compareLoop checkingData result.1 0
    if r.1 = XOR_SUCCESS ∧ r.2 ≠ result.1.length then XOR_INCORRECT_FILE else r.1
  else res

/-! ## Bytes and hexadecimal digits -/

/-- A character of `0-9` or `A-F`. -/
def isHexDigit (c : Char) : Prop := ('0' ≤ c ∧ c ≤ '9') ∨ ('A' ≤ c ∧ c ≤ 'F')

instance (c : Char) : Decidable (isHexDigit c) := by
  unfold isHexDigit; infer_instance

/-! ## `main` -/

/-- Embedding of `Usage` (source lines 64-69): the message goes to `std::cout`; the return value
is always `XOR_INVALID_PARAM`. -/
def Usage (_message : CppString) : Nat := XOR_INVALID_PARAM

/-- Embedding of `main` (source lines 335-385). `argv` is the argument vector, program name
first, and `argc` its length; `fs` is the file system, giving for a file name the bytes of the
file, or `none` when it cannot be opened. -/
def main (fs : CppString → Option (List Byte)) (argv : List CppString) : Nat :=
  let argc := argv.length
  if argc ≠ 2 ∧ argc ≠ 3 then Usage "Invalid number of arguments".toList
  else
    let fileName := argv.getD 1 []
    if fileName.length = 0 then Usage "Invalid file name.".toList
    else if argc = 3 then
      let checkingData := argv.getD 2 []
      if checkingData.length ≠ XOR_SIZE then Usage "Invalid XOR checking data size".toList
      else CheckFileContent (fs fileName) checkingData
    else (GenerateXORCheckingData (fs fileName)).2

/-! ## Vocabulary of the statements -/

/-- The reduced block of a file: `LoadFileBlocks` into an empty vector, then
`ProcessFileBlocks`, as `GenerateXORCheckingData` chains them. -/
def reducedBlock (bytes : List Byte) : Block :=
  ProcessFileBlocks (LoadFileBlocks (some bytes) []).2

/-- The xor of the bytes of `bytes` whose position, counted from `pos`, is `i` modulo
`BLOCKSIZE`. -/
def columnXorFrom (i : Nat) : Nat → List Byte → Nat
  | _, [] => 0
  | pos, b :: rest =>
    (if pos % BLOCKSIZE = i then b.val else 0) ^^^ columnXorFrom i (pos + 1) rest

/-- The xor of all file bytes `f[j]` with `j < L` and `j mod 64 = i`. -/
def columnXor (bytes : List Byte) (i : Nat) : Nat := columnXorFrom i 0 bytes

/-- The byte `c` with bit `b` flipped. -/
def flipBit (c : Byte) (b : Nat) : Byte := ⟨(c.val ^^^ (1 <<< b)) % 256, Nat.mod_lt _ (by decide)⟩

/-- The file `bytes` with bit `b` of the byte at position `p` flipped. -/
def flipFileBit (bytes : List Byte) (p b : Nat) : List Byte :=
  bytes.set p (flipBit (bytes.getD p 0) b)

theorem Byte.xor_val (a b : Byte) : (Byte.xor a b).val = a.val ^^^ b.val := by
  have h : a.val ^^^ b.val < 2 ^ 8 := Nat.xor_lt_two_pow a.isLt b.isLt
  show (a.val ^^^ b.val) % 256 = a.val ^^^ b.val
  exact Nat.mod_eq_of_lt h

theorem lutAt_isHexDigit : ∀ k : Fin 16, isHexDigit (lutAt k.val) := by decide

theorem lutAt_ne_NUL : ∀ k : Fin 16, lutAt k.val ≠ NUL := by decide

theorem hi_nibble_lt (c : Byte) : c.val >>> 4 < 16 := by
  have := c.isLt
  rw [Nat.shiftRight_eq_div_pow]
  omega

theorem lo_nibble_lt (c : Byte) : c.val &&& 15 < 16 :=
  Nat.lt_of_le_of_lt Nat.and_le_right (by decide)

theorem to_hex_string_length (b : Block) : (to_hex_string b).length = 2 * b.length := by
  induction b with
  | nil => rfl
  | cons c rest ih => simp only [to_hex_string, List.length_cons, ih]; omega

theorem to_hex_string_isHexDigit (b : Block) : ∀ ch ∈ to_hex_string b, isHexDigit ch := by
  induction b with
  | nil => intro ch h; simp [to_hex_string] at h
  | cons c rest ih =>
    intro ch h
    simp only [to_hex_string, List.mem_cons] at h
    rcases h with h | h | h
    · subst h; exact lutAt_isHexDigit ⟨_, hi_nibble_lt c⟩
    · subst h; exact lutAt_isHexDigit ⟨_, lo_nibble_lt c⟩
    · exact ih ch h

theorem to_hex_string_ne_NUL (b : Block) : ∀ ch ∈ to_hex_string b, ch ≠ NUL := by
  induction b with
  | nil => intro ch h; simp [to_hex_string] at h
  | cons c rest ih =>
    intro ch h
    simp only [to_hex_string, List.mem_cons] at h
    rcases h with h | h | h
    · subst h; exact lutAt_ne_NUL ⟨_, hi_nibble_lt c⟩
    · subst h; exact lutAt_ne_NUL ⟨_, lo_nibble_lt c⟩
    · exact ih ch h

/-! ## The read loop -/

theorem read_block_length (is : IStream) (buf : Block) (n : Nat) (hn : n ≤ buf.length) :
    (is.read buf n).2.length = buf.length := by
  unfold IStream.read
  split
  · rfl
  · simp only [List.length_append, List.length_take, List.length_drop]
    omega

theorem readLoop_neg (is : IStream) (length : Int) (blocks : List Block) (h : length < 0) :
    readLoop is length blocks = blocks := by
  rw [readLoop, dif_neg (by omega)]

theorem readLoop_nonneg (is : IStream) (length : Int) (blocks : List Block) (h : 0 ≤ length) :
    readLoop is length blocks =
      readLoop
        (is.read (List.replicate BLOCKSIZE padByte)
          (if length > BLOCKSIZE then (BLOCKSIZE : Int) else length).toNat).1
        (length - BLOCKSIZE)
        (blocks ++ [(is.read (List.replicate BLOCKSIZE padByte)
          (if length > BLOCKSIZE then (BLOCKSIZE : Int) else length).toNat).2]) := by
  rw [readLoop, dif_pos h]

theorem toRead_le (length : Int) :
    (if length > BLOCKSIZE then (BLOCKSIZE : Int) else length).toNat ≤ BLOCKSIZE := by
  have hb : ((BLOCKSIZE : Nat) : Int) = 64 := rfl
  split <;> omega

theorem readLoop_block_length (is : IStream) (length : Int) (blocks : List Block)
    (hb : ∀ b ∈ blocks, b.length = BLOCKSIZE) :
    ∀ b ∈ readLoop is length blocks, b.length = BLOCKSIZE := by
  induction is, length, blocks using readLoop.induct with
  | case1 is length blocks h block toRead r ih =>
    rw [readLoop_nonneg _ _ _ h]
    apply ih
    intro b hmem
    rcases List.mem_append.mp hmem with hm | hm
    · exact hb b hm
    · rw [List.mem_singleton] at hm
      subst hm
      rw [read_block_length _ _ _ (by simpa using toRead_le length)]
      exact List.length_replicate _ _
  | case2 is length blocks h =>
    rw [readLoop_neg _ _ _ (by omega)]
    exact hb

/-! ## The reducer -/

theorem DoXOR_length (a b : Block) : (DoXOR a b).length = min a.length b.length := by
  simp [DoXOR]

theorem foldl_DoXOR_length (blocks : List Block) (acc : Block)
    (hb : ∀ b ∈ blocks, b.length = acc.length) :
    (blocks.foldl DoXOR acc).length = acc.length := by
  induction blocks generalizing acc with
  | nil => rfl
  | cons b rest ih =>
    have h1 : (DoXOR acc b).length = acc.length := by
      rw [DoXOR_length, hb b (List.mem_cons_self _ _)]; simp
    rw [List.foldl_cons, ih (DoXOR acc b) (fun x hx => by
      rw [h1]; exact hb x (List.mem_cons_of_mem _ hx)), h1]

theorem ProcessFileBlocks_length (blocks : List Block)
    (hb : ∀ b ∈ blocks, b.length = BLOCKSIZE) :
    (ProcessFileBlocks blocks).length = BLOCKSIZE := by
  unfold ProcessFileBlocks
  rw [foldl_DoXOR_length _ _ (by simpa using hb)]
  simp

/-! ## The pipeline -/

theorem LoadFileBlocks_large (bytes : List Byte) (blocks : List Block)
    (hL : BLOCKSIZE < bytes.length) :
    LoadFileBlocks (some bytes) blocks =
      (XOR_SUCCESS, readLoop ⟨bytes, false⟩ bytes.length blocks) := by
  have h : ((bytes.length : Nat) : Int) > ((BLOCKSIZE : Nat) : Int) := by exact_mod_cast hL
  simp only [LoadFileBlocks, if_pos h]

theorem LoadFileBlocks_small (bytes : List Byte) (blocks : List Block)
    (hL : bytes.length ≤ BLOCKSIZE) :
    LoadFileBlocks (some bytes) blocks = (XOR_FILE_PROC_ERROR, blocks) := by
  have h : ¬ ((bytes.length : Nat) : Int) > ((BLOCKSIZE : Nat) : Int) := by
    have : ((bytes.length : Nat) : Int) ≤ ((BLOCKSIZE : Nat) : Int) := by exact_mod_cast hL
    omega
  simp only [LoadFileBlocks, if_neg h]

theorem Generate_large (bytes : List Byte) (hL : BLOCKSIZE < bytes.length) :
    GenerateXORCheckingData (some bytes) =
      (to_hex_string (ProcessFileBlocks (readLoop ⟨bytes, false⟩ bytes.length [])),
        XOR_SUCCESS) := by
  have hlen : (ProcessFileBlocks (readLoop ⟨bytes, false⟩ bytes.length [])).length
      = BLOCKSIZE :=
    ProcessFileBlocks_length _ (readLoop_block_length _ _ _ (by simp))
  simp [GenerateXORCheckingData, LoadFileBlocks_large bytes [] hL, checkResultBlock, hlen]

/-! ## The comparison loop -/

theorem at_of_drop_nil (cd : CppString) (n : Nat) (h : cd.drop n = []) : cd.at n = NUL := by
  have hlen : cd.length ≤ n := List.drop_eq_nil_iff.mp h
  simp [CppString.at, List.getD, List.getElem?_eq_none hlen]

theorem at_of_drop_cons (cd : CppString) (n : Nat) (d : Char) (rest : List Char)
    (h : cd.drop n = d :: rest) : cd.at n = d ∧ cd.drop (n + 1) = rest := by
  induction cd generalizing n with
  | nil => simp at h
  | cons x xs ih =>
    cases n with
    | zero =>
      simp only [List.drop_zero, List.cons.injEq] at h
      simp [CppString.at, h.1, h.2]
    | succ m =>
      simp only [List.drop_succ_cons] at h
      have := ih m h
      simpa [CppString.at] using this

theorem compareLoop_runs_through (cd : CppString) (it : CppString) (cnt : Nat)
    (hnul : ∀ c ∈ it, c ≠ NUL) (hpre : it <+: cd.drop cnt) :
    compareLoop cd it cnt = (XOR_SUCCESS, cnt + it.length) := by
  induction it generalizing cnt with
  | nil => simp [compareLoop]
  | cons c it ih =>
    obtain ⟨t, ht⟩ := hpre
    have hd : cd.drop cnt = c :: (it ++ t) := by simpa using ht.symm
    obtain ⟨hat, hdrop⟩ := at_of_drop_cons cd cnt c _ hd
    have hc : c ≠ NUL := hnul c (List.mem_cons_self _ _)
    have hrec := ih (cnt + 1) (fun x hx => hnul x (List.mem_cons_of_mem _ hx))
      (by rw [hdrop]; exact List.prefix_append _ _)
    simp only [compareLoop, hat, if_neg hc, ne_eq, not_true_eq_false, if_false, hrec,
      List.length_cons]
    congr 1
    omega

theorem compareLoop_stops_early (cd : CppString) (it : CppString) (cnt : Nat)
    (hpre : ¬ it <+: cd.drop cnt) :
    (compareLoop cd it cnt).1 = XOR_INCORRECT_FILE ∨
      ((compareLoop cd it cnt).1 = XOR_SUCCESS ∧ (compareLoop cd it cnt).2 < cnt + it.length) := by
  induction it generalizing cnt with
  | nil => exact absurd ⟨cd.drop cnt, rfl⟩ hpre
  | cons c it ih =>
    cases hd : cd.drop cnt with
    | nil =>
      right
      simp [compareLoop, at_of_drop_nil cd cnt hd]
    | cons d rest =>
      obtain ⟨hat, hdrop⟩ := at_of_drop_cons cd cnt d rest hd
      by_cases hnul : d = NUL
      · right
        simp [compareLoop, hat, hnul]
      · by_cases hcd : c = d
        · subst hcd
          have hrest : ¬ it <+: cd.drop (cnt + 1) := by
            intro h
            apply hpre
            rw [hd, List.cons_prefix_cons]
            exact ⟨rfl, by rwa [hdrop] at h⟩
          have hrec := ih (cnt + 1) hrest
          simp only [compareLoop, hat, if_neg hnul, ne_eq, not_true_eq_false, if_false,
            List.length_cons]
          rcases hrec with h | ⟨h1, h2⟩
          · exact Or.inl h
          · exact Or.inr ⟨h1, by omega⟩
        · left
          simp [compareLoop, hat, hnul, hcd]

theorem compareLoop_short (cd : CppString) (it : CppString) (cnt : Nat)
    (hnul : ∀ c ∈ cd.drop cnt, c ≠ NUL) (hpre : cd.drop cnt <+: it) (hne : cd.drop cnt ≠ it) :
    compareLoop cd it cnt = (XOR_SUCCESS, cnt + (cd.drop cnt).length) := by
  induction it generalizing cnt with
  | nil => exact absurd (List.prefix_nil.mp hpre) hne
  | cons c it ih =>
    cases hd : cd.drop cnt with
    | nil => simp [compareLoop, at_of_drop_nil cd cnt hd]
    | cons d rest =>
      obtain ⟨hat, hdrop⟩ := at_of_drop_cons cd cnt d rest hd
      rw [hd] at hpre hne hnul
      rw [List.cons_prefix_cons] at hpre
      obtain ⟨hdc, hrest⟩ := hpre
      subst hdc
      have hdn : d ≠ NUL := hnul d (List.mem_cons_self _ _)
      have hrec := ih (cnt + 1)
        (by rw [hdrop]; exact fun x hx => hnul x (List.mem_cons_of_mem _ hx))
        (by rw [hdrop]; exact hrest)
        (by rw [hdrop]; intro h; exact hne (by rw [h]))
      simp only [compareLoop, hat, if_neg hdn, ne_eq, not_true_eq_false, if_false, hrec, hdrop,
        List.length_cons]
      congr 1
      omega

theorem CheckFileContent_large (bytes : List Byte) (cd : CppString)
    (hL : BLOCKSIZE < bytes.length) :
    CheckFileContent (some bytes) cd =
      if (compareLoop cd (GenerateXORCheckingData (some bytes)).1 0).1 = XOR_SUCCESS ∧
          (compareLoop cd (GenerateXORCheckingData (some bytes)).1 0).2 ≠
            (GenerateXORCheckingData (some bytes)).1.length
      then XOR_INCORRECT_FILE
      else (compareLoop cd (GenerateXORCheckingData (some bytes)).1 0).1 := by
  have h2 : (GenerateXORCheckingData (some bytes)).2 = XOR_SUCCESS := by
    rw [Generate_large bytes hL]
  simp only [CheckFileContent, h2, if_true]

theorem Generate_ne_NUL (bytes : List Byte) (hL : BLOCKSIZE < bytes.length) :
    ∀ c ∈ (GenerateXORCheckingData (some bytes)).1, c ≠ NUL := by
  rw [Generate_large bytes hL]
  exact to_hex_string_ne_NUL _

theorem CheckFileContent_accepts (bytes : List Byte) (cd : CppString)
    (hL : BLOCKSIZE < bytes.length) (hpre : (GenerateXORCheckingData (some bytes)).1 <+: cd) :
    CheckFileContent (some bytes) cd = XOR_SUCCESS := by
  rw [CheckFileContent_large bytes cd hL,
    compareLoop_runs_through cd _ 0 (Generate_ne_NUL bytes hL) (by simpa using hpre)]
  simp

theorem CheckFileContent_rejects (bytes : List Byte) (cd : CppString)
    (hL : BLOCKSIZE < bytes.length) (hpre : ¬ (GenerateXORCheckingData (some bytes)).1 <+: cd) :
    CheckFileContent (some bytes) cd = XOR_INCORRECT_FILE := by
  rw [CheckFileContent_large bytes cd hL]
  rcases compareLoop_stops_early cd (GenerateXORCheckingData (some bytes)).1 0
    (by simpa using hpre) with h | ⟨h1, h2⟩
  · rw [h]; simp
  · rw [if_pos ⟨h1, by omega⟩]

theorem CheckFileContent_success_iff (bytes : List Byte) (cd : CppString)
    (hL : BLOCKSIZE < bytes.length) :
    CheckFileContent (some bytes) cd = XOR_SUCCESS ↔
      (GenerateXORCheckingData (some bytes)).1 <+: cd := by
  constructor
  · intro h
    by_contra hpre
    rw [CheckFileContent_rejects bytes cd hL hpre] at h
    exact absurd h (by decide)
  · exact CheckFileContent_accepts bytes cd hL

/-! ## Byte `i` of the reduced block, and its length -/

theorem DoXOR_getD (a b : Block) (i : Nat) (ha : i < a.length) (hb : i < b.length) :
    ((DoXOR a b).getD i 0).val = (a.getD i 0).val ^^^ (b.getD i 0).val := by
  have hi : i < (DoXOR a b).length := by rw [DoXOR_length]; omega
  rw [List.getD_eq_getElem _ _ hi, List.getD_eq_getElem _ _ ha, List.getD_eq_getElem _ _ hb]
  simp only [DoXOR, List.getElem_zipWith]
  exact Byte.xor_val _ _

theorem foldl_DoXOR_getD (blocks : List Block) (acc : Block) (i : Nat) (hi : i < acc.length)
    (hb : ∀ b ∈ blocks, b.length = acc.length) :
    ((blocks.foldl DoXOR acc).getD i 0).val =
      (blocks.map (fun b => (b.getD i 0).val)).foldl (· ^^^ ·) (acc.getD i 0).val := by
  induction blocks generalizing acc with
  | nil => rfl
  | cons b rest ih =>
    have hbl : b.length = acc.length := hb b (List.mem_cons_self _ _)
    have h1 : (DoXOR acc b).length = acc.length := by
      rw [DoXOR_length, hbl]; exact Nat.min_self _
    rw [List.foldl_cons, ih (DoXOR acc b) (by omega) (fun x hx => by
      rw [h1]; exact hb x (List.mem_cons_of_mem _ hx))]
    rw [List.map_cons, List.foldl_cons, DoXOR_getD acc b i hi (by omega)]

theorem foldl_DoXOR_length_eq (blocks : List Block) (acc : Block) :
    (blocks.foldl DoXOR acc).length = (blocks.map List.length).foldl min acc.length := by
  induction blocks generalizing acc with
  | nil => rfl
  | cons b rest ih => rw [List.foldl_cons, ih, DoXOR_length, List.map_cons, List.foldl_cons]

theorem foldl_min_lt_iff (l : List Nat) (a n : Nat) :
    l.foldl min a < n ↔ a < n ∨ ∃ x ∈ l, x < n := by
  induction l generalizing a with
  | nil => simp
  | cons y ys ih =>
    rw [List.foldl_cons, ih]
    have hmin : min a y < n ↔ a < n ∨ y < n := by omega
    simp only [List.mem_cons, exists_eq_or_imp, hmin, or_assoc]

theorem foldl_min_le (l : List Nat) (a : Nat) : l.foldl min a ≤ a := by
  induction l generalizing a with
  | nil => exact Nat.le_refl _
  | cons y ys ih =>
    rw [List.foldl_cons]
    exact Nat.le_trans (ih _) (Nat.min_le_left _ _)

theorem ProcessFileBlocks_length_ne_iff (blocks : List Block) :
    (ProcessFileBlocks blocks).length ≠ BLOCKSIZE ↔ ∃ b ∈ blocks, b.length < BLOCKSIZE := by
  have hlen : (ProcessFileBlocks blocks).length = (blocks.map List.length).foldl min BLOCKSIZE := by
    unfold ProcessFileBlocks
    rw [foldl_DoXOR_length_eq, List.length_replicate]
  have hle := foldl_min_le (blocks.map List.length) BLOCKSIZE
  have hiff := foldl_min_lt_iff (blocks.map List.length) BLOCKSIZE BLOCKSIZE
  rw [hlen]
  constructor
  · intro h
    have hlt : (blocks.map List.length).foldl min BLOCKSIZE < BLOCKSIZE := by omega
    rcases hiff.mp hlt with h0 | ⟨x, hx, hxl⟩
    · omega
    · obtain ⟨b, hbm, rfl⟩ := List.mem_map.mp hx
      exact ⟨b, hbm, hxl⟩
  · rintro ⟨b, hbm, hbl⟩
    have : (blocks.map List.length).foldl min BLOCKSIZE < BLOCKSIZE :=
      hiff.mpr (Or.inr ⟨b.length, List.mem_map.mpr ⟨b, hbm, rfl⟩, hbl⟩)
    omega

/-! ## The 65 zero bytes and the 128 zero bytes -/

theorem Load_zeros65 :
    LoadFileBlocks (some (List.replicate 65 0)) [] =
      (XOR_SUCCESS, [List.replicate 64 0, 0 :: List.replicate 63 padByte]) := by
  rw [LoadFileBlocks_large _ _ (by simp [BLOCKSIZE])]
  rw [readLoop_nonneg _ _ _ (by simp [BLOCKSIZE]), readLoop_nonneg _ _ _ (by simp [BLOCKSIZE]),
    readLoop_neg _ _ _ (by simp [BLOCKSIZE])]
  decide

theorem Generate_zeros65 :
    GenerateXORCheckingData (some (List.replicate 65 0)) =
      ('2' :: '3' :: List.replicate 126 '0', XOR_SUCCESS) := by
  rw [Generate_large _ (by simp [BLOCKSIZE])]
  rw [readLoop_nonneg _ _ _ (by simp [BLOCKSIZE]), readLoop_nonneg _ _ _ (by simp [BLOCKSIZE]),
    readLoop_neg _ _ _ (by simp [BLOCKSIZE])]
  decide

theorem Load_zeros128 :
    LoadFileBlocks (some (List.replicate 128 0)) [] =
      (XOR_SUCCESS,
        [List.replicate 64 0, List.replicate 64 0, List.replicate 64 padByte]) := by
  rw [LoadFileBlocks_large _ _ (by simp [BLOCKSIZE])]
  rw [readLoop_nonneg _ _ _ (by simp [BLOCKSIZE]), readLoop_nonneg _ _ _ (by simp [BLOCKSIZE]),
    readLoop_nonneg _ _ _ (by simp [BLOCKSIZE]), readLoop_neg _ _ _ (by simp [BLOCKSIZE])]
  decide

theorem Generate_length (bytes : List Byte) (hL : BLOCKSIZE < bytes.length) :
    (GenerateXORCheckingData (some bytes)).1.length = XOR_SIZE := by
  rw [Generate_large bytes hL]
  show (to_hex_string _).length = 128
  rw [to_hex_string_length,
    ProcessFileBlocks_length _ (readLoop_block_length _ _ _ (by simp))]
  rfl

/-! ## The claims -/

/-- C1: for every readable file of more than 64 bytes, `GenerateXORCheckingData` returns the
status `XOR_SUCCESS` together with a string of exactly 128 characters, each of which is one of
`0-9` or `A-F`. -/
theorem C1_generate_hex128 (bytes : List Byte) (hL : BLOCKSIZE < bytes.length) :
    (GenerateXORCheckingData (some bytes)).2 = XOR_SUCCESS ∧
      (GenerateXORCheckingData (some bytes)).1.length = 128 ∧
      ∀ c ∈ (GenerateXORCheckingData (some bytes)).1, isHexDigit c := by
  refine ⟨?_, Generate_length bytes hL, ?_⟩
  · rw [Generate_large bytes hL]
  · rw [Generate_large bytes hL]
    exact to_hex_string_isHexDigit _

theorem C1_generate_hex128_witness :
    BLOCKSIZE < (List.replicate 70 (0xA5 : Byte)).length ∧
      (GenerateXORCheckingData (some (List.replicate 70 0xA5))).2 = XOR_SUCCESS ∧
      (GenerateXORCheckingData (some (List.replicate 70 0xA5))).1.length = 128 ∧
      ∀ c ∈ (GenerateXORCheckingData (some (List.replicate 70 0xA5))).1, isHexDigit c :=
  ⟨by simp only [List.length_replicate]; decide, C1_generate_hex128 _ (by simp only [List.length_replicate]; decide)⟩

/-- C2: for every file of at most 64 bytes (the empty file and a file of exactly 64 bytes
included), `GenerateXORCheckingData` returns `XOR_FILE_PROC_ERROR` and an empty string, and
`LoadFileBlocks` leaves the output vector as it was. -/
theorem C2_small_file_rejected (bytes : List Byte) (hL : bytes.length ≤ BLOCKSIZE) :
    GenerateXORCheckingData (some bytes) = ([], XOR_FILE_PROC_ERROR) ∧
      ∀ blocks, LoadFileBlocks (some bytes) blocks = (XOR_FILE_PROC_ERROR, blocks) := by
  refine ⟨?_, fun blocks => LoadFileBlocks_small bytes blocks hL⟩
  simp [GenerateXORCheckingData, LoadFileBlocks_small bytes [] hL]

theorem C2_small_file_rejected_witness :
    (List.replicate 64 (7 : Byte)).length ≤ BLOCKSIZE ∧
      GenerateXORCheckingData (some (List.replicate 64 7)) = ([], XOR_FILE_PROC_ERROR) ∧
      ∀ blocks, LoadFileBlocks (some (List.replicate 64 7)) blocks =
        (XOR_FILE_PROC_ERROR, blocks) :=
  ⟨by simp only [List.length_replicate]; decide, C2_small_file_rejected _ (by simp only [List.length_replicate]; decide)⟩

/-- C3, at a file of 128 zero bytes: `LoadFileBlocks` produces three blocks, two of 64 zero bytes
and a third of 64 pad bytes, where `ceil(128 / 64)` is two. -/
theorem C3_three_blocks_for_128_bytes :
    (LoadFileBlocks (some (List.replicate 128 0)) []).2 =
        [List.replicate 64 0, List.replicate 64 0, List.replicate 64 padByte] ∧
      (LoadFileBlocks (some (List.replicate 128 0)) []).2.length = 3 ∧
      (128 + (BLOCKSIZE - 1)) / BLOCKSIZE = 2 := by
  rw [Load_zeros128]
  exact ⟨rfl, rfl, by decide⟩

/-- C4 as stated fails: for the file of 65 zero bytes the string returned by
`GenerateXORCheckingData` is not `"00"` followed by 63 times `"23"`. -/
theorem C4_zeros65_not_00_then_23 :
    (GenerateXORCheckingData (some (List.replicate 65 0))).1 ≠
      '0' :: '0' :: (List.replicate 63 ['2', '3']).flatten := by
  rw [Generate_zeros65]
  decide

/-- C4, amended: for the file of 65 zero bytes `LoadFileBlocks` produces two blocks (64 zero
bytes, then one zero byte followed by 63 bytes `0x23`) and `GenerateXORCheckingData` returns
`XOR_SUCCESS` with the 128-character string made of `"23"` followed by 63 times `"00"`. -/
theorem C4_zeros65 :
    LoadFileBlocks (some (List.replicate 65 0)) [] =
        (XOR_SUCCESS, [List.replicate 64 0, 0 :: List.replicate 63 0x23]) ∧
      GenerateXORCheckingData (some (List.replicate 65 0)) =
        ('2' :: '3' :: (List.replicate 63 ['0', '0']).flatten, XOR_SUCCESS) ∧
      ('2' :: '3' :: (List.replicate 63 ['0', '0']).flatten).length = 128 := by
  rw [Load_zeros65, Generate_zeros65]
  decide

/-- C5: round trip. For every file of more than 64 bytes, `CheckFileContent` called with the file
and the string that `GenerateXORCheckingData` returns for it yields `XOR_SUCCESS`. -/
theorem C5_round_trip (bytes : List Byte) (hL : BLOCKSIZE < bytes.length) :
    CheckFileContent (some bytes) (GenerateXORCheckingData (some bytes)).1 = XOR_SUCCESS :=
  CheckFileContent_accepts bytes _ hL (List.prefix_refl _)

theorem C5_round_trip_witness :
    BLOCKSIZE < (List.replicate 200 (0x5A : Byte)).length ∧
      CheckFileContent (some (List.replicate 200 0x5A))
        (GenerateXORCheckingData (some (List.replicate 200 0x5A))).1 = XOR_SUCCESS :=
  ⟨by simp only [List.length_replicate]; decide, C5_round_trip _ (by simp only [List.length_replicate]; decide)⟩

/-- C6: for every file of more than 64 bytes and every 128-character checking string other than
the computed hex string (two strings of one length differ exactly when they differ at some
position), `CheckFileContent` returns `XOR_INCORRECT_FILE`, which is neither `XOR_SUCCESS` nor
`XOR_FILE_PROC_ERROR`. -/
theorem C6_mismatch_incorrect_file (bytes : List Byte) (cd : CppString)
    (hL : BLOCKSIZE < bytes.length) (hlen : cd.length = XOR_SIZE)
    (hne : cd ≠ (GenerateXORCheckingData (some bytes)).1) :
    CheckFileContent (some bytes) cd = XOR_INCORRECT_FILE ∧
      CheckFileContent (some bytes) cd ≠ XOR_SUCCESS ∧
      CheckFileContent (some bytes) cd ≠ XOR_FILE_PROC_ERROR := by
  have h : CheckFileContent (some bytes) cd = XOR_INCORRECT_FILE := by
    apply CheckFileContent_rejects bytes cd hL
    intro hpre
    exact hne (hpre.eq_of_length (by rw [Generate_length bytes hL, hlen])).symm
  refine ⟨h, ?_, ?_⟩ <;> rw [h] <;> decide

theorem C6_mismatch_incorrect_file_witness :
    BLOCKSIZE < (List.replicate 65 (0 : Byte)).length ∧
      (List.replicate 128 'F').length = XOR_SIZE ∧
      List.replicate 128 'F' ≠ (GenerateXORCheckingData (some (List.replicate 65 0))).1 ∧
      CheckFileContent (some (List.replicate 65 0)) (List.replicate 128 'F')
        = XOR_INCORRECT_FILE ∧
      CheckFileContent (some (List.replicate 65 0)) (List.replicate 128 'F') ≠ XOR_SUCCESS ∧
      CheckFileContent (some (List.replicate 65 0)) (List.replicate 128 'F')
        ≠ XOR_FILE_PROC_ERROR :=
  ⟨by simp only [List.length_replicate]; decide, by simp only [List.length_replicate], by rw [Generate_zeros65]; decide,
    C6_mismatch_incorrect_file _ _ (by simp only [List.length_replicate]; decide) (by simp only [List.length_replicate])
      (by rw [Generate_zeros65]; decide)⟩

/-- C7 as stated fails: for the file of 65 zero bytes, a checking string of 129 characters whose
first 128 are the computed hex string is accepted with `XOR_SUCCESS` although it is not equal to
the computed hex string. -/
theorem C7_longer_string_accepted :
    CheckFileContent (some (List.replicate 65 0)) ('2' :: '3' :: List.replicate 127 '0')
        = XOR_SUCCESS ∧
      '2' :: '3' :: List.replicate 127 '0' ≠
        (GenerateXORCheckingData (some (List.replicate 65 0))).1 := by
  constructor
  · apply CheckFileContent_accepts _ _ (by simp only [List.length_replicate]; decide)
    rw [Generate_zeros65]
    exact ⟨['0'], by decide⟩
  · rw [Generate_zeros65]
    decide

/-- C7, amended: for every file of more than 64 bytes and every checking string of at most 128
characters, `CheckFileContent` returns `XOR_SUCCESS` if and only if the checking string equals the
computed hex string. -/
theorem C7_success_iff_equal (bytes : List Byte) (cd : CppString)
    (hL : BLOCKSIZE < bytes.length) (hlen : cd.length ≤ XOR_SIZE) :
    CheckFileContent (some bytes) cd = XOR_SUCCESS ↔
      cd = (GenerateXORCheckingData (some bytes)).1 := by
  rw [CheckFileContent_success_iff bytes cd hL]
  constructor
  · intro hpre
    exact (hpre.eq_of_length_le (by rw [Generate_length bytes hL]; exact hlen)).symm
  · intro h
    rw [h]

theorem C7_success_iff_equal_witness :
    BLOCKSIZE < (List.replicate 65 (0 : Byte)).length ∧
      (List.replicate 128 '0').length ≤ XOR_SIZE ∧
      (CheckFileContent (some (List.replicate 65 0)) (List.replicate 128 '0') = XOR_SUCCESS ↔
        List.replicate 128 '0' = (GenerateXORCheckingData (some (List.replicate 65 0))).1) :=
  ⟨by simp only [List.length_replicate]; decide, by simp only [List.length_replicate]; decide,
    C7_success_iff_equal _ _ (by simp only [List.length_replicate]; decide)
      (by simp only [List.length_replicate]; decide)⟩

/-- C8: for every file of more than 64 bytes and every checking string that is a strict prefix of
the computed hex string (the empty string included), the comparison loop of `CheckFileContent` is
left without a mismatch (`res` still `XOR_SUCCESS`) with `cnt` the length of the checking string,
which is not the size of the computed string, and `CheckFileContent` returns
`XOR_INCORRECT_FILE`. -/
theorem C8_shorter_string_size_mismatch (bytes : List Byte) (cd : CppString)
    (hL : BLOCKSIZE < bytes.length)
    (hpre : cd <+: (GenerateXORCheckingData (some bytes)).1)
    (hne : cd ≠ (GenerateXORCheckingData (some bytes)).1) :
    compareLoop cd (GenerateXORCheckingData (some bytes)).1 0 = (XOR_SUCCESS, cd.length) ∧
      cd.length ≠ (GenerateXORCheckingData (some bytes)).1.length ∧
      CheckFileContent (some bytes) cd = XOR_INCORRECT_FILE := by
  have hnul : ∀ c ∈ cd, c ≠ NUL :=
    fun c hc => Generate_ne_NUL bytes hL c (hpre.subset hc)
  have hloop := compareLoop_short cd (GenerateXORCheckingData (some bytes)).1 0
    (by simpa using hnul) (by simpa using hpre) (by simpa using hne)
  simp only [List.drop_zero, Nat.zero_add] at hloop
  have hlen : cd.length ≠ (GenerateXORCheckingData (some bytes)).1.length :=
    fun h => hne (hpre.eq_of_length h)
  refine ⟨hloop, hlen, ?_⟩
  rw [CheckFileContent_large bytes cd hL, hloop]
  exact if_pos ⟨rfl, hlen⟩

theorem C8_shorter_string_size_mismatch_witness :
    BLOCKSIZE < (List.replicate 65 (0 : Byte)).length ∧
      ['2', '3', '0'] <+: (GenerateXORCheckingData (some (List.replicate 65 0))).1 ∧
      ['2', '3', '0'] ≠ (GenerateXORCheckingData (some (List.replicate 65 0))).1 ∧
      compareLoop ['2', '3', '0'] (GenerateXORCheckingData (some (List.replicate 65 0))).1 0
        = (XOR_SUCCESS, ['2', '3', '0'].length) ∧
      ['2', '3', '0'].length ≠ (GenerateXORCheckingData (some (List.replicate 65 0))).1.length ∧
      CheckFileContent (some (List.replicate 65 0)) ['2', '3', '0'] = XOR_INCORRECT_FILE :=
  ⟨by simp only [List.length_replicate]; decide,
    by rw [Generate_zeros65]; exact ⟨List.replicate 125 '0', by decide⟩,
    by rw [Generate_zeros65]; decide,
    C8_shorter_string_size_mismatch _ _ (by simp only [List.length_replicate]; decide)
      (by rw [Generate_zeros65]; exact ⟨List.replicate 125 '0', by decide⟩)
      (by rw [Generate_zeros65]; decide)⟩

/-- C9: for every sequence of blocks that all have length 64 (the empty sequence included),
`ProcessFileBlocks` returns a block of length 64 whose byte `i`, for every `i < 64`, is `0x23`
xor-ed in turn with byte `i` of every block of the sequence: the left fold of xor over the bytes
at `i`, started at `0x23`. -/
theorem C9_reduce_bytewise_fold (blocks : List Block)
    (hb : ∀ b ∈ blocks, b.length = BLOCKSIZE) :
    (ProcessFileBlocks blocks).length = BLOCKSIZE ∧
      ∀ i, i < BLOCKSIZE →
        ((ProcessFileBlocks blocks)[i]?).map Fin.val =
          some ((blocks.map (fun b => (b.getD i 0).val)).foldl (· ^^^ ·) 0x23) := by
  have hlen := ProcessFileBlocks_length blocks hb
  refine ⟨hlen, fun i hi => ?_⟩
  have hacc : (List.replicate BLOCKSIZE padByte).length = BLOCKSIZE := List.length_replicate _ _
  have hfold := foldl_DoXOR_getD blocks (List.replicate BLOCKSIZE padByte) i
    (by rw [hacc]; exact hi) (by rw [hacc]; exact hb)
  have hpad : ((List.replicate BLOCKSIZE padByte).getD i 0).val = 0x23 := by
    rw [List.getD_eq_getElem _ _ (by rw [hacc]; exact hi), List.getElem_replicate]
    rfl
  rw [hpad] at hfold
  have hi2 : i < (ProcessFileBlocks blocks).length := by rw [hlen]; exact hi
  rw [List.getElem?_eq_getElem hi2, ← hfold]
  show some ((ProcessFileBlocks blocks)[i]).val = some ((ProcessFileBlocks blocks).getD i 0).val
  rw [List.getD_eq_getElem _ _ hi2]

theorem C9_reduce_bytewise_fold_witness :
    (∀ b ∈ [List.replicate 64 (1 : Byte), List.replicate 64 0xFF], b.length = BLOCKSIZE) ∧
      (ProcessFileBlocks [List.replicate 64 1, List.replicate 64 0xFF]).length = BLOCKSIZE ∧
      ∀ i, i < BLOCKSIZE →
        ((ProcessFileBlocks [List.replicate 64 1, List.replicate 64 0xFF])[i]?).map Fin.val =
          some (([List.replicate 64 (1 : Byte), List.replicate 64 0xFF].map
            (fun b => (b.getD i 0).val)).foldl (· ^^^ ·) 0x23) :=
  ⟨by decide, C9_reduce_bytewise_fold _ (by decide)⟩

/-- C10 as stated fails: a sequence holding one block of 65 bytes contains a block of length other
than 64, yet the result of `ProcessFileBlocks` has length 64 and the size check of
`GenerateXORCheckingData` passes with `XOR_SUCCESS`. -/
theorem C10_longer_block_not_detected :
    (∃ b ∈ [List.replicate 65 (0 : Byte)], b.length ≠ BLOCKSIZE) ∧
      (ProcessFileBlocks [List.replicate 65 0]).length = BLOCKSIZE ∧
      (checkResultBlock (ProcessFileBlocks [List.replicate 65 0])).2 = XOR_SUCCESS := by
  decide

/-- C10, amended: the reducer fails distinguishably exactly when it is given a block shorter than
the accumulator. For every block sequence, the result of `ProcessFileBlocks` has a length other
than 64 if and only if the sequence contains a block of length less than 64, and that is exactly
when the size check of `GenerateXORCheckingData` reports `XOR_FILE_PROC_ERROR` with an empty
string. -/
theorem C10_shorter_block_detected (blocks : List Block) :
    ((ProcessFileBlocks blocks).length ≠ BLOCKSIZE ↔ ∃ b ∈ blocks, b.length < BLOCKSIZE) ∧
      (checkResultBlock (ProcessFileBlocks blocks) = ([], XOR_FILE_PROC_ERROR) ↔
        ∃ b ∈ blocks, b.length < BLOCKSIZE) := by
  refine ⟨ProcessFileBlocks_length_ne_iff blocks, ?_⟩
  rw [← ProcessFileBlocks_length_ne_iff blocks]
  unfold checkResultBlock
  by_cases h : (ProcessFileBlocks blocks).length ≠ BLOCKSIZE
  · simp [h]
  · simp [h]

/-! ## The blocks of a file, in closed form -/

theorem readLoop_full (bytes : List Byte) (blocks : List Block)
    (hlen : BLOCKSIZE ≤ bytes.length) :
    readLoop ⟨bytes, false⟩ bytes.length blocks =
      readLoop ⟨bytes.drop BLOCKSIZE, false⟩ (bytes.drop BLOCKSIZE).length
        (blocks ++ [bytes.take BLOCKSIZE]) := by
  have hb : ((BLOCKSIZE : Nat) : Int) = 64 := rfl
  have hlen2 : (64 : Int) ≤ (bytes.length : Int) := by
    have : ((BLOCKSIZE : Nat) : Int) ≤ (bytes.length : Int) := by exact_mod_cast hlen
    omega
  have htr : (if (bytes.length : Int) > BLOCKSIZE then (BLOCKSIZE : Int)
      else (bytes.length : Int)).toNat = BLOCKSIZE := by
    split <;> omega
  have htake : (bytes.take BLOCKSIZE).length = BLOCKSIZE := by
    rw [List.length_take]; omega
  have hread : IStream.read ⟨bytes, false⟩ (List.replicate BLOCKSIZE padByte) BLOCKSIZE =
      (⟨bytes.drop BLOCKSIZE, false⟩, bytes.take BLOCKSIZE) := by
    simp only [IStream.read, htake, List.drop_replicate, Nat.sub_self, List.replicate_zero,
      List.append_nil, Nat.lt_irrefl, decide_False]
    rfl
  have hrest : ((bytes.length : Int) - (BLOCKSIZE : Int)) =
      ((bytes.drop BLOCKSIZE).length : Int) := by
    rw [List.length_drop]; omega
  rw [readLoop_nonneg _ _ _ (by omega), htr, hread, hrest]

theorem readLoop_last (bytes : List Byte) (blocks : List Block)
    (hlen : bytes.length < BLOCKSIZE) :
    readLoop ⟨bytes, false⟩ bytes.length blocks =
      blocks ++ [bytes ++ List.replicate (BLOCKSIZE - bytes.length) padByte] := by
  have hb : ((BLOCKSIZE : Nat) : Int) = 64 := rfl
  have hlen2 : (bytes.length : Int) < 64 := by
    have : (bytes.length : Int) < ((BLOCKSIZE : Nat) : Int) := by exact_mod_cast hlen
    omega
  have htr : (if (bytes.length : Int) > BLOCKSIZE then (BLOCKSIZE : Int)
      else (bytes.length : Int)).toNat = bytes.length := by
    split <;> omega
  have hread : IStream.read ⟨bytes, false⟩ (List.replicate BLOCKSIZE padByte) bytes.length =
      (⟨[], false⟩, bytes ++ List.replicate (BLOCKSIZE - bytes.length) padByte) := by
    simp [IStream.read]
  rw [readLoop_nonneg _ _ _ (by omega), htr, hread, readLoop_neg _ _ _ (by omega)]

theorem readLoop_decomp (full : List Block) (tail : List Byte) (blocks : List Block)
    (hfull : ∀ b ∈ full, b.length = BLOCKSIZE) (htail : tail.length < BLOCKSIZE) :
    readLoop ⟨full.flatten ++ tail, false⟩ (full.flatten ++ tail).length blocks =
      blocks ++ full ++ [tail ++ List.replicate (BLOCKSIZE - tail.length) padByte] := by
  induction full generalizing blocks with
  | nil => simpa using readLoop_last tail blocks htail
  | cons b rest ih =>
    have hbl : b.length = BLOCKSIZE := hfull b (List.mem_cons_self _ _)
    have hrest : ∀ x ∈ rest, x.length = BLOCKSIZE :=
      fun x hx => hfull x (List.mem_cons_of_mem _ hx)
    have heq : (b :: rest).flatten ++ tail = b ++ (rest.flatten ++ tail) := by simp
    have htake : (b ++ (rest.flatten ++ tail)).take BLOCKSIZE = b := by
      rw [← hbl]; exact List.take_left' rfl
    have hdrop : (b ++ (rest.flatten ++ tail)).drop BLOCKSIZE = rest.flatten ++ tail := by
      rw [← hbl]; exact List.drop_left' rfl
    rw [heq, readLoop_full _ _ (by rw [List.length_append, hbl]; omega), htake, hdrop,
      ih _ hrest]
    simp

theorem exists_decomp (bytes : List Byte) :
    ∃ full : List Block, ∃ tail : List Byte,
      (∀ b ∈ full, b.length = BLOCKSIZE) ∧ tail.length < BLOCKSIZE ∧
        bytes = full.flatten ++ tail := by
  have hB : BLOCKSIZE = 64 := rfl
  generalize h : bytes.length = n
  induction n using Nat.strong_induction_on generalizing bytes with
  | _ n ih =>
    by_cases hlt : bytes.length < BLOCKSIZE
    · exact ⟨[], bytes, by simp, hlt, by simp⟩
    · have hdl : (bytes.drop BLOCKSIZE).length < n := by
        rw [List.length_drop]; omega
      obtain ⟨full, tail, hfull, htail, heq⟩ := ih _ hdl (bytes.drop BLOCKSIZE) rfl
      refine ⟨bytes.take BLOCKSIZE :: full, tail, ?_, htail, ?_⟩
      · intro b hb
        rcases List.mem_cons.mp hb with rfl | hb
        · rw [List.length_take]; omega
        · exact hfull b hb
      · rw [List.flatten_cons, List.append_assoc, ← heq, List.take_append_drop]

theorem flatten_length_full (full : List Block) (hfull : ∀ b ∈ full, b.length = BLOCKSIZE) :
    full.flatten.length = BLOCKSIZE * full.length := by
  induction full with
  | nil => rfl
  | cons b rest ih =>
    rw [List.flatten_cons, List.length_append, hfull b (List.mem_cons_self _ _),
      ih (fun x hx => hfull x (List.mem_cons_of_mem _ hx)), List.length_cons, Nat.mul_succ]
    omega

theorem LoadFileBlocks_decomp (full : List Block) (tail : List Byte)
    (hfull : ∀ b ∈ full, b.length = BLOCKSIZE) (htail : tail.length < BLOCKSIZE)
    (hL : BLOCKSIZE < (full.flatten ++ tail).length) :
    (LoadFileBlocks (some (full.flatten ++ tail)) []).2 =
      full ++ [tail ++ List.replicate (BLOCKSIZE - tail.length) padByte] := by
  rw [LoadFileBlocks_large _ _ hL, readLoop_decomp full tail [] hfull htail]
  simp

/-! ## The hexadecimal rendering, character by character -/

theorem to_hex_string_getElem?_even (b : Block) (i : Nat) :
    (to_hex_string b)[2 * i]? = (b[i]?).map (fun c => lutAt (c.val >>> 4)) := by
  induction b generalizing i with
  | nil => simp [to_hex_string]
  | cons c rest ih =>
    cases i with
    | zero => simp [to_hex_string]
    | succ k =>
      have h2 : 2 * (k + 1) = 2 * k + 1 + 1 := by omega
      rw [h2]
      simp only [to_hex_string, List.getElem?_cons_succ]
      exact ih k

theorem to_hex_string_getElem?_odd (b : Block) (i : Nat) :
    (to_hex_string b)[2 * i + 1]? = (b[i]?).map (fun c => lutAt (c.val &&& 15)) := by
  induction b generalizing i with
  | nil => simp [to_hex_string]
  | cons c rest ih =>
    cases i with
    | zero => simp [to_hex_string]
    | succ k =>
      have h2 : 2 * (k + 1) + 1 = (2 * k + 1) + 1 + 1 := by omega
      rw [h2]
      simp only [to_hex_string, List.getElem?_cons_succ]
      exact ih k

theorem hi_nibble_eq : ∀ c : Byte, c.val >>> 4 = c.val / 16 := by decide

theorem lo_nibble_eq : ∀ c : Byte, c.val &&& 15 = c.val % 16 := by decide

theorem lutAt_eq_table : ∀ k : Fin 16,
    "0123456789ABCDEF".toList[k.val]? = some (lutAt k.val) := by decide

theorem lutAt_injective : ∀ j k : Fin 16, lutAt j.val = lutAt k.val → j = k := by decide

theorem byte_eq_of_nibbles (c d : Byte) (hhi : lutAt (c.val >>> 4) = lutAt (d.val >>> 4))
    (hlo : lutAt (c.val &&& 15) = lutAt (d.val &&& 15)) : c = d := by
  have h1 := lutAt_injective ⟨_, hi_nibble_lt c⟩ ⟨_, hi_nibble_lt d⟩ hhi
  have h2 := lutAt_injective ⟨_, lo_nibble_lt c⟩ ⟨_, lo_nibble_lt d⟩ hlo
  simp only [Fin.mk.injEq, hi_nibble_eq, lo_nibble_eq] at h1 h2
  apply Fin.ext
  omega

theorem to_hex_string_inj (a b : Block) (h : to_hex_string a = to_hex_string b) : a = b := by
  induction a generalizing b with
  | nil =>
    cases b with
    | nil => rfl
    | cons d rest => simp [to_hex_string] at h
  | cons c rest ih =>
    cases b with
    | nil => simp [to_hex_string] at h
    | cons d rest2 =>
      simp only [to_hex_string, List.cons.injEq] at h
      obtain ⟨h1, h2, h3⟩ := h
      rw [byte_eq_of_nibbles c d h1 h2, ih rest2 h3]

/-- C11: for every byte sequence `b`, `to_hex_string b` has exactly `2 * len(b)` characters, and
for every index `i < len(b)` the character at `2i` is entry `b[i] / 16` (the high nibble) and the
character at `2i + 1` entry `b[i] mod 16` (the low nibble) of the table `0123456789ABCDEF`. -/
theorem C11_hex_layout (b : Block) (i : Nat) (hi : i < b.length) :
    (to_hex_string b).length = 2 * b.length ∧
      b[i].val / 16 < 16 ∧ b[i].val % 16 < 16 ∧
      (to_hex_string b)[2 * i]? = "0123456789ABCDEF".toList[b[i].val / 16]? ∧
      (to_hex_string b)[2 * i + 1]? = "0123456789ABCDEF".toList[b[i].val % 16]? := by
  have h1 : b[i].val / 16 < 16 := by have := b[i].isLt; omega
  have h2 : b[i].val % 16 < 16 := Nat.mod_lt _ (by decide)
  refine ⟨to_hex_string_length b, h1, h2, ?_, ?_⟩
  · rw [to_hex_string_getElem?_even, List.getElem?_eq_getElem hi, Option.map_some',
      hi_nibble_eq, lutAt_eq_table ⟨_, h1⟩]
  · rw [to_hex_string_getElem?_odd, List.getElem?_eq_getElem hi, Option.map_some',
      lo_nibble_eq, lutAt_eq_table ⟨_, h2⟩]

theorem C11_hex_layout_witness :
    1 < [(0x3C : Byte), 0xA7].length ∧
      (to_hex_string [0x3C, 0xA7]).length = 2 * [(0x3C : Byte), 0xA7].length ∧
      ([(0x3C : Byte), 0xA7][1]).val / 16 < 16 ∧ ([(0x3C : Byte), 0xA7][1]).val % 16 < 16 ∧
      (to_hex_string [0x3C, 0xA7])[2 * 1]? =
        "0123456789ABCDEF".toList[([(0x3C : Byte), 0xA7][1]).val / 16]? ∧
      (to_hex_string [0x3C, 0xA7])[2 * 1 + 1]? =
        "0123456789ABCDEF".toList[([(0x3C : Byte), 0xA7][1]).val % 16]? :=
  ⟨by decide, C11_hex_layout [0x3C, 0xA7] 1 (by decide)⟩

/-- C20: `to_hex_string` is injective: for all byte sequences `a` and `b`,
`to_hex_string a = to_hex_string b` implies `a = b`; so two checksum strings are equal exactly
when the blocks they render are equal. -/
theorem C20_to_hex_string_injective :
    Function.Injective to_hex_string ∧
      ∀ a b : Block, to_hex_string a = to_hex_string b ↔ a = b :=
  ⟨fun a b h => to_hex_string_inj a b h,
    fun a b => ⟨to_hex_string_inj a b, fun h => by rw [h]⟩⟩

/-! ## Consequences of the closed form -/

theorem LoadFileBlocks_blocks (bytes : List Byte) (hL : BLOCKSIZE < bytes.length) :
    ∃ full : List Block, ∃ tail : List Byte,
      (∀ b ∈ full, b.length = BLOCKSIZE) ∧ tail.length = bytes.length % BLOCKSIZE ∧
        full.length = bytes.length / BLOCKSIZE ∧ bytes = full.flatten ++ tail ∧
        (LoadFileBlocks (some bytes) []).2 =
          full ++ [tail ++ List.replicate (BLOCKSIZE - tail.length) padByte] := by
  have hB : BLOCKSIZE = 64 := rfl
  obtain ⟨full, tail, hfull, htail, heq⟩ := exists_decomp bytes
  have hlen : bytes.length = BLOCKSIZE * full.length + tail.length := by
    rw [heq, List.length_append, flatten_length_full full hfull]
  rw [hB] at hlen htail hL ⊢
  refine ⟨full, tail, hfull, ?_, ?_, heq, ?_⟩
  · omega
  · omega
  · have hL2 : BLOCKSIZE < (full.flatten ++ tail).length := by rw [← heq]; exact hL
    rw [heq]
    exact LoadFileBlocks_decomp full tail hfull htail hL2

theorem LoadFileBlocks_flatten (bytes : List Byte) (hL : BLOCKSIZE < bytes.length) :
    (LoadFileBlocks (some bytes) []).2.flatten =
      bytes ++ List.replicate (BLOCKSIZE - bytes.length % BLOCKSIZE) padByte := by
  obtain ⟨full, tail, _, htl, _, heq, hload⟩ := LoadFileBlocks_blocks bytes hL
  rw [hload, ← htl]
  conv_rhs => rw [heq]
  simp

theorem LoadFileBlocks_block_length (bytes : List Byte) (hL : BLOCKSIZE < bytes.length) :
    ∀ b ∈ (LoadFileBlocks (some bytes) []).2, b.length = BLOCKSIZE := by
  rw [LoadFileBlocks_large bytes [] hL]
  exact readLoop_block_length _ _ _ (by simp)

/-- C13: for every file of more than 64 bytes, every block produced by `LoadFileBlocks` has
exactly 64 bytes, the first `L` bytes of the concatenation of the blocks in order are exactly the
bytes of the file, and every byte of the concatenation after position `L` is the pad byte
`0x23`. -/
theorem C13_blocks_are_file_then_pad (bytes : List Byte) (hL : BLOCKSIZE < bytes.length) :
    (∀ b ∈ (LoadFileBlocks (some bytes) []).2, b.length = 64) ∧
      (LoadFileBlocks (some bytes) []).2.flatten.take bytes.length = bytes ∧
      ∀ c ∈ (LoadFileBlocks (some bytes) []).2.flatten.drop bytes.length, c = (0x23 : Byte) := by
  refine ⟨LoadFileBlocks_block_length bytes hL, ?_, ?_⟩
  · rw [LoadFileBlocks_flatten bytes hL]
    exact List.take_left' rfl
  · rw [LoadFileBlocks_flatten bytes hL, List.drop_left' rfl]
    intro c hc
    exact List.eq_of_mem_replicate hc

theorem C13_blocks_are_file_then_pad_witness :
    BLOCKSIZE < (List.replicate 100 (0x41 : Byte)).length ∧
      (∀ b ∈ (LoadFileBlocks (some (List.replicate 100 0x41)) []).2, b.length = 64) ∧
      (LoadFileBlocks (some (List.replicate 100 0x41)) []).2.flatten.take
        (List.replicate 100 (0x41 : Byte)).length = List.replicate 100 0x41 ∧
      ∀ c ∈ (LoadFileBlocks (some (List.replicate 100 0x41)) []).2.flatten.drop
        (List.replicate 100 (0x41 : Byte)).length, c = (0x23 : Byte) :=
  ⟨by simp only [List.length_replicate]; decide,
    C13_blocks_are_file_then_pad _ (by simp only [List.length_replicate]; decide)⟩

/-- C14: for every invocation of `main` with a file argument and a checking-data argument whose
length is not 128, `main` returns `XOR_INVALID_PARAM` (1) whatever the file system holds: the
result does not depend on the existence or the content of any file. -/
theorem C14_bad_checking_size_invalid_param (fs : CppString → Option (List Byte))
    (prog fileName checkingData : CppString) (hlen : checkingData.length ≠ XOR_SIZE) :
    main fs [prog, fileName, checkingData] = XOR_INVALID_PARAM ∧ XOR_INVALID_PARAM = 1 := by
  refine ⟨?_, rfl⟩
  by_cases hf : fileName.length = 0
  · simp [main, Usage, hf]
  · simp [main, Usage, hf, hlen]

theorem C14_bad_checking_size_invalid_param_witness :
    (List.replicate 100 'A').length ≠ XOR_SIZE ∧
      main (fun _ => some (List.replicate 65 0))
        ["DoXOR".toList, "report.bin".toList, List.replicate 100 'A'] = XOR_INVALID_PARAM ∧
      XOR_INVALID_PARAM = 1 :=
  ⟨by simp only [List.length_replicate]; decide,
    C14_bad_checking_size_invalid_param _ _ _ _ (by simp only [List.length_replicate]; decide)⟩

/-- C15: for every file whose length `L > 64` is an exact multiple of 64, `LoadFileBlocks`
produces `L / 64 + 1` blocks, the last of which is a block of 64 pad bytes `0x23`. -/
theorem C15_extra_pad_block (bytes : List Byte) (hL : BLOCKSIZE < bytes.length)
    (hmul : bytes.length % BLOCKSIZE = 0) :
    (LoadFileBlocks (some bytes) []).2.length = bytes.length / 64 + 1 ∧
      (LoadFileBlocks (some bytes) []).2.getLast? = some (List.replicate 64 0x23) := by
  obtain ⟨full, tail, _, htl, hfl, _, hload⟩ := LoadFileBlocks_blocks bytes hL
  have ht : tail = [] := List.length_eq_zero.mp (by rw [htl, hmul])
  subst ht
  rw [hload]
  constructor
  · rw [List.length_append, hfl]; rfl
  · rw [List.getLast?_append_of_ne_nil _ (by simp)]
    rfl

theorem C15_extra_pad_block_witness :
    BLOCKSIZE < (List.replicate 128 (0x11 : Byte)).length ∧
      (List.replicate 128 (0x11 : Byte)).length % BLOCKSIZE = 0 ∧
      (LoadFileBlocks (some (List.replicate 128 0x11)) []).2.length =
        (List.replicate 128 (0x11 : Byte)).length / 64 + 1 ∧
      (LoadFileBlocks (some (List.replicate 128 0x11)) []).2.getLast? =
        some (List.replicate 64 0x23) :=
  ⟨by simp only [List.length_replicate]; decide, by simp only [List.length_replicate]; decide,
    C15_extra_pad_block _ (by simp only [List.length_replicate]; decide)
      (by simp only [List.length_replicate]; decide)⟩

theorem LoadFileBlocks_append_pad (bytes : List Byte) (hL : BLOCKSIZE < bytes.length)
    (hr : bytes.length % BLOCKSIZE ≠ 63) :
    (LoadFileBlocks (some (bytes ++ [padByte])) []).2 = (LoadFileBlocks (some bytes) []).2 := by
  have hB : BLOCKSIZE = 64 := rfl
  obtain ⟨full, tail, hfull, htl, _, heq, hload⟩ := LoadFileBlocks_blocks bytes hL
  have htail : tail.length + 1 < BLOCKSIZE := by
    have := Nat.mod_lt bytes.length (show 0 < BLOCKSIZE by decide)
    omega
  have heq2 : bytes ++ [padByte] = full.flatten ++ (tail ++ [padByte]) := by
    rw [heq, List.append_assoc]
  have hL2 : BLOCKSIZE < (full.flatten ++ (tail ++ [padByte])).length := by
    rw [← heq2, List.length_append]; omega
  rw [hload, heq2, LoadFileBlocks_decomp full (tail ++ [padByte]) hfull
    (by rw [List.length_append]; exact htail) hL2]
  have hk : BLOCKSIZE - tail.length = (BLOCKSIZE - (tail ++ [padByte]).length) + 1 := by
    rw [List.length_append, List.length_singleton]; omega
  rw [hk, List.replicate_succ]
  simp

theorem Generate_eq_reduced (bytes : List Byte) (hL : BLOCKSIZE < bytes.length) :
    (GenerateXORCheckingData (some bytes)).1 = to_hex_string (reducedBlock bytes) := by
  rw [Generate_large bytes hL, reducedBlock, LoadFileBlocks_large bytes [] hL]

/-- C19: trailing-pad collision. For every file of length `L > 64` with `L mod 64` different from
63, the file with one byte `0x23` appended loads into the same blocks, has the same checksum
string, and is accepted by `CheckFileContent` against the checksum of the original file. -/
theorem C19_trailing_pad_collision (bytes : List Byte) (hL : BLOCKSIZE < bytes.length)
    (hr : bytes.length % 64 ≠ 63) :
    (LoadFileBlocks (some (bytes ++ [0x23])) []).2 = (LoadFileBlocks (some bytes) []).2 ∧
      (GenerateXORCheckingData (some (bytes ++ [0x23]))).1 =
        (GenerateXORCheckingData (some bytes)).1 ∧
      CheckFileContent (some (bytes ++ [0x23])) (GenerateXORCheckingData (some bytes)).1 =
        XOR_SUCCESS := by
  have hL2 : BLOCKSIZE < (bytes ++ [(0x23 : Byte)]).length := by
    rw [List.length_append]; omega
  have hload : (LoadFileBlocks (some (bytes ++ [0x23])) []).2 =
      (LoadFileBlocks (some bytes) []).2 := LoadFileBlocks_append_pad bytes hL hr
  have hgen : (GenerateXORCheckingData (some (bytes ++ [0x23]))).1 =
      (GenerateXORCheckingData (some bytes)).1 := by
    rw [Generate_eq_reduced _ hL2, Generate_eq_reduced _ hL, reducedBlock, reducedBlock, hload]
  refine ⟨hload, hgen, ?_⟩
  rw [← hgen]
  exact CheckFileContent_accepts _ _ hL2 (List.prefix_refl _)

theorem C19_trailing_pad_collision_witness :
    BLOCKSIZE < (List.replicate 70 (0x01 : Byte)).length ∧
      (List.replicate 70 (0x01 : Byte)).length % 64 ≠ 63 ∧
      (LoadFileBlocks (some (List.replicate 70 0x01 ++ [0x23])) []).2 =
        (LoadFileBlocks (some (List.replicate 70 0x01)) []).2 ∧
      (GenerateXORCheckingData (some (List.replicate 70 0x01 ++ [0x23]))).1 =
        (GenerateXORCheckingData (some (List.replicate 70 0x01))).1 ∧
      CheckFileContent (some (List.replicate 70 0x01 ++ [0x23]))
        (GenerateXORCheckingData (some (List.replicate 70 0x01))).1 = XOR_SUCCESS :=
  ⟨by simp only [List.length_replicate]; decide, by simp only [List.length_replicate]; decide,
    C19_trailing_pad_collision _ (by simp only [List.length_replicate]; decide)
      (by simp only [List.length_replicate]; decide)⟩

/-! ## The reduced block, column by column -/

theorem columnXorFrom_append (i pos : Nat) (a b : List Byte) :
    columnXorFrom i pos (a ++ b) =
      columnXorFrom i pos a ^^^ columnXorFrom i (pos + a.length) b := by
  induction a generalizing pos with
  | nil => simp [columnXorFrom]
  | cons x xs ih =>
    have h : pos + 1 + xs.length = pos + (xs.length + 1) := by omega
    rw [List.cons_append, columnXorFrom, columnXorFrom, ih (pos + 1), List.length_cons,
      Nat.xor_assoc, h]

theorem columnXorFrom_short (i pos : Nat) (c : List Byte)
    (hpos : pos % BLOCKSIZE + c.length ≤ BLOCKSIZE) :
    columnXorFrom i pos c =
      if pos % BLOCKSIZE ≤ i ∧ i < pos % BLOCKSIZE + c.length
      then (c.getD (i - pos % BLOCKSIZE) 0).val else 0 := by
  have hB : BLOCKSIZE = 64 := rfl
  induction c generalizing pos with
  | nil =>
    have : ¬ (pos % BLOCKSIZE ≤ i ∧ i < pos % BLOCKSIZE + ([] : List Byte).length) := by
      simp only [List.length_nil]; omega
    rw [if_neg this]; rfl
  | cons x xs ih =>
    rw [List.length_cons] at hpos ⊢
    rw [columnXorFrom]
    by_cases hxs : xs = []
    · subst hxs
      have hl : ([] : List Byte).length = 0 := rfl
      by_cases hp : pos % BLOCKSIZE = i
      · have : pos % BLOCKSIZE ≤ i ∧ i < pos % BLOCKSIZE + (([] : List Byte).length + 1) := by
          omega
        rw [if_pos hp, if_pos this, hp, Nat.sub_self]
        simp [columnXorFrom]
      · have : ¬ (pos % BLOCKSIZE ≤ i ∧
            i < pos % BLOCKSIZE + (([] : List Byte).length + 1)) := by
          omega
        rw [if_neg hp, if_neg this]
        simp [columnXorFrom]
    · have hlen : 0 < xs.length := List.length_pos.mpr hxs
      have hnext : (pos + 1) % BLOCKSIZE = pos % BLOCKSIZE + 1 := by
        rw [hB] at hpos ⊢; omega
      rw [ih (pos + 1) (by rw [hnext]; omega), hnext]
      by_cases hp : pos % BLOCKSIZE = i
      · have h1 : ¬ (pos % BLOCKSIZE + 1 ≤ i ∧ i < pos % BLOCKSIZE + 1 + xs.length) := by omega
        have h2 : pos % BLOCKSIZE ≤ i ∧ i < pos % BLOCKSIZE + (xs.length + 1) := by omega
        rw [if_pos hp, if_neg h1, if_pos h2, hp, Nat.sub_self]
        simp
      · rw [if_neg hp, Nat.zero_xor]
        by_cases h1 : pos % BLOCKSIZE + 1 ≤ i ∧ i < pos % BLOCKSIZE + 1 + xs.length
        · have h2 : pos % BLOCKSIZE ≤ i ∧ i < pos % BLOCKSIZE + (xs.length + 1) := by omega
          have h3 : i - pos % BLOCKSIZE = (i - (pos % BLOCKSIZE + 1)) + 1 := by omega
          rw [if_pos h1, if_pos h2, h3, List.getD_cons_succ]
        · have h2 : ¬ (pos % BLOCKSIZE ≤ i ∧ i < pos % BLOCKSIZE + (xs.length + 1)) := by omega
          rw [if_neg h1, if_neg h2]

theorem columnXorFrom_block (i pos : Nat) (b : Block)
    (hpos : pos % BLOCKSIZE = 0) (hb : b.length ≤ BLOCKSIZE) :
    columnXorFrom i pos b = if i < b.length then (b.getD i 0).val else 0 := by
  rw [columnXorFrom_short i pos b (by rw [hpos]; omega), hpos]
  simp

theorem foldl_xor_full (i pos acc : Nat) (full : List Block) (hi : i < BLOCKSIZE)
    (hpos : pos % BLOCKSIZE = 0) (hfull : ∀ b ∈ full, b.length = BLOCKSIZE) :
    (full.map (fun b => (b.getD i 0).val)).foldl (· ^^^ ·) acc =
      acc ^^^ columnXorFrom i pos full.flatten := by
  have hB : BLOCKSIZE = 64 := rfl
  induction full generalizing pos acc with
  | nil => simp [columnXorFrom]
  | cons b rest ih =>
    have hbl : b.length = BLOCKSIZE := hfull b (List.mem_cons_self _ _)
    rw [List.map_cons, List.foldl_cons, List.flatten_cons, columnXorFrom_append,
      columnXorFrom_block i pos b hpos (by omega), if_pos (by omega), hbl,
      ih (pos + BLOCKSIZE) _ (by rw [hB] at hpos ⊢; omega)
        (fun x hx => hfull x (List.mem_cons_of_mem _ hx)), Nat.xor_assoc]

theorem reducedBlock_length (bytes : List Byte) (hL : BLOCKSIZE < bytes.length) :
    (reducedBlock bytes).length = BLOCKSIZE :=
  ProcessFileBlocks_length _ (LoadFileBlocks_block_length bytes hL)

theorem reducedBlock_getD (bytes : List Byte) (i : Nat) (hL : BLOCKSIZE < bytes.length)
    (hi : i < BLOCKSIZE) :
    ((reducedBlock bytes).getD i 0).val =
      columnXor bytes i ^^^ (if i < bytes.length % BLOCKSIZE then 0x23 else 0) := by
  have hB : BLOCKSIZE = 64 := rfl
  obtain ⟨full, tail, hfull, htl, hfl, heq, hload⟩ := LoadFileBlocks_blocks bytes hL
  have htail : tail.length < BLOCKSIZE := by
    rw [htl]; exact Nat.mod_lt _ (by decide)
  have hall : ∀ b ∈ full ++ [tail ++ List.replicate (BLOCKSIZE - tail.length) padByte],
      b.length = (List.replicate BLOCKSIZE padByte).length := by
    intro b hb
    rw [List.length_replicate]
    rcases List.mem_append.mp hb with h | h
    · exact hfull b h
    · rw [List.mem_singleton] at h
      rw [h, List.length_append, List.length_replicate]; omega
  have hpad : ((List.replicate BLOCKSIZE padByte).getD i 0).val = 0x23 := by
    rw [List.getD_eq_getElem _ _ (by rw [List.length_replicate]; exact hi),
      List.getElem_replicate]
    rfl
  have hcol : columnXor bytes i = columnXorFrom i 0 full.flatten ^^^
      (if i < tail.length then (tail.getD i 0).val else 0) := by
    rw [columnXor, heq, columnXorFrom_append, Nat.zero_add,
      columnXorFrom_block i full.flatten.length tail
        (by rw [flatten_length_full full hfull]; exact Nat.mul_mod_right _ _) (by omega)]
  rw [reducedBlock, hload, ProcessFileBlocks,
    foldl_DoXOR_getD _ _ i (by rw [List.length_replicate]; exact hi) hall, hpad,
    List.map_append, List.foldl_append, foldl_xor_full i 0 _ full hi rfl hfull, hcol, ← htl]
  simp only [List.map_cons, List.map_nil, List.foldl_cons, List.foldl_nil]
  by_cases hit : i < tail.length
  · rw [if_pos hit, if_pos hit, List.getD_append _ _ _ _ hit]
    ac_rfl
  · rw [if_neg hit, if_neg hit, List.getD_append_right _ _ _ _ (by omega),
      List.getD_eq_getElem _ _ (by rw [List.length_replicate]; omega), List.getElem_replicate]
    show (35 ^^^ columnXorFrom i 0 full.flatten) ^^^ 35 = _
    rw [Nat.xor_zero, Nat.xor_zero, Nat.xor_comm, ← Nat.xor_assoc, Nat.xor_self, Nat.zero_xor]

/-- C16: closed form of the checksum. For every file `f` of length `L > 64` and every `i < 64`,
byte `i` of the reduced block (`LoadFileBlocks`, then `ProcessFileBlocks`) is the xor of all file
bytes `f[j]` with `j < L` and `j mod 64 = i`, xor-ed with `0x23` exactly when `i < L mod 64`; for
`L` a multiple of 64 no `i` is below `L mod 64`, and the byte is the plain column-wise xor. -/
theorem C16_checksum_closed_form (bytes : List Byte) (i : Nat) (hL : BLOCKSIZE < bytes.length)
    (hi : i < BLOCKSIZE) :
    ((ProcessFileBlocks (LoadFileBlocks (some bytes) []).2)[i]?).map Fin.val =
      some (if i < bytes.length % 64 then columnXor bytes i ^^^ 0x23 else columnXor bytes i) := by
  have hlen := reducedBlock_length bytes hL
  have hget := reducedBlock_getD bytes i hL hi
  have hi2 : i < (reducedBlock bytes).length := by rw [hlen]; exact hi
  rw [List.getD_eq_getElem _ _ hi2] at hget
  show ((reducedBlock bytes)[i]?).map Fin.val = _
  rw [List.getElem?_eq_getElem hi2, Option.map_some', hget]
  by_cases h : i < bytes.length % 64
  · rw [if_pos h, if_pos h]
  · rw [if_neg h, if_neg h, Nat.xor_zero]

theorem C16_checksum_closed_form_witness :
    BLOCKSIZE < (List.replicate 130 (0x0F : Byte)).length ∧ 1 < BLOCKSIZE ∧
      ((ProcessFileBlocks (LoadFileBlocks (some (List.replicate 130 0x0F)) []).2)[1]?).map Fin.val
        = some (if 1 < (List.replicate 130 (0x0F : Byte)).length % 64
            then columnXor (List.replicate 130 0x0F) 1 ^^^ 0x23
            else columnXor (List.replicate 130 0x0F) 1) :=
  ⟨by simp only [List.length_replicate]; decide, by decide,
    C16_checksum_closed_form _ 1 (by simp only [List.length_replicate]; decide) (by decide)⟩

/-! ## Flipping one bit of a file -/

theorem flipBit_val (c : Byte) (b : Nat) (hb : b < 8) :
    (flipBit c b).val = c.val ^^^ (1 <<< b) := by
  have h1 : 1 <<< b < 2 ^ 8 := by
    rw [Nat.one_shiftLeft]; exact Nat.pow_lt_pow_right (by decide) hb
  have h : c.val ^^^ (1 <<< b) < 2 ^ 8 := Nat.xor_lt_two_pow c.isLt h1
  show (c.val ^^^ (1 <<< b)) % 256 = c.val ^^^ (1 <<< b)
  exact Nat.mod_eq_of_lt h

theorem flipFileBit_length (bytes : List Byte) (p b : Nat) :
    (flipFileBit bytes p b).length = bytes.length := by
  simp [flipFileBit]

theorem xor_swap_out (x r v : Nat) : v ^^^ r = (x ^^^ r) ^^^ (x ^^^ v) := by
  have h : (x ^^^ r) ^^^ (x ^^^ v) = x ^^^ (x ^^^ (v ^^^ r)) := by ac_rfl
  rw [h, Nat.xor_cancel_left]

theorem columnXorFrom_set (i pos p : Nat) (f : List Byte) (v : Byte) (hp : p < f.length) :
    columnXorFrom i pos (f.set p v) =
      columnXorFrom i pos f ^^^
        (if (pos + p) % BLOCKSIZE = i then (f.getD p 0).val ^^^ v.val else 0) := by
  induction f generalizing pos p with
  | nil => simp at hp
  | cons x xs ih =>
    cases p with
    | zero =>
      simp only [List.set_cons_zero, columnXorFrom, Nat.add_zero, List.getD_cons_zero]
      by_cases h : pos % BLOCKSIZE = i
      · simp only [if_pos h]
        exact xor_swap_out _ _ _
      · simp only [if_neg h, Nat.zero_xor, Nat.xor_zero]
    | succ q =>
      have hq : q < xs.length := by simpa using hp
      have hpq : pos + 1 + q = pos + (q + 1) := by omega
      simp only [List.set_cons_succ, columnXorFrom, List.getD_cons_succ, ih (pos + 1) q hq,
        hpq, Nat.xor_assoc]

theorem columnXor_flip (bytes : List Byte) (i p b : Nat) (hp : p < bytes.length) (hb : b < 8) :
    columnXor (flipFileBit bytes p b) i =
      columnXor bytes i ^^^ (if p % BLOCKSIZE = i then 1 <<< b else 0) := by
  rw [columnXor, flipFileBit, columnXorFrom_set i 0 p bytes _ hp, Nat.zero_add, flipBit_val _ _ hb,
    Nat.xor_cancel_left]
  rfl

theorem reducedBlock_flip (bytes : List Byte) (i p b : Nat) (hL : BLOCKSIZE < bytes.length)
    (hi : i < BLOCKSIZE) (hp : p < bytes.length) (hb : b < 8) :
    ((reducedBlock (flipFileBit bytes p b)).getD i 0).val =
      ((reducedBlock bytes).getD i 0).val ^^^ (if p % BLOCKSIZE = i then 1 <<< b else 0) := by
  have hL2 : BLOCKSIZE < (flipFileBit bytes p b).length := by
    rw [flipFileBit_length]; exact hL
  rw [reducedBlock_getD _ i hL2 hi, reducedBlock_getD _ i hL hi, flipFileBit_length,
    columnXor_flip bytes i p b hp hb]
  ac_rfl

theorem reducedBlock_flip_ne (bytes : List Byte) (p b : Nat) (hL : BLOCKSIZE < bytes.length)
    (hp : p < bytes.length) (hb : b < 8) :
    reducedBlock (flipFileBit bytes p b) ≠ reducedBlock bytes := by
  intro heq
  have h := reducedBlock_flip bytes (p % BLOCKSIZE) p b hL (Nat.mod_lt _ (by decide)) hp hb
  rw [heq, if_pos rfl] at h
  have h0 : 1 <<< b = 0 := by
    have h2 := congrArg (fun t => ((reducedBlock bytes).getD (p % BLOCKSIZE) 0).val ^^^ t) h
    simp only [Nat.xor_self, Nat.xor_cancel_left] at h2
    exact h2.symm
  rw [Nat.one_shiftLeft] at h0
  exact absurd h0 (Nat.pos_iff_ne_zero.mp (Nat.two_pow_pos b))

theorem Generate_flip_ne (bytes : List Byte) (p b : Nat) (hL : BLOCKSIZE < bytes.length)
    (hp : p < bytes.length) (hb : b < 8) :
    (GenerateXORCheckingData (some (flipFileBit bytes p b))).1 ≠
      (GenerateXORCheckingData (some bytes)).1 := by
  have hL2 : BLOCKSIZE < (flipFileBit bytes p b).length := by
    rw [flipFileBit_length]; exact hL
  rw [Generate_eq_reduced _ hL2, Generate_eq_reduced _ hL]
  intro h
  exact reducedBlock_flip_ne bytes p b hL hp hb (to_hex_string_inj _ _ h)

/-- C12: mutation sensitivity. For every file of more than 64 bytes, every byte position
`p < 64` and every bit position `b < 8`, the file with that single bit flipped has a checksum
string different from the checksum string of the original file. -/
theorem C12_first_block_bit_flip_detected (bytes : List Byte) (p b : Nat)
    (hL : BLOCKSIZE < bytes.length) (hp : p < BLOCKSIZE) (hb : b < 8) :
    (GenerateXORCheckingData (some (flipFileBit bytes p b))).1 ≠
      (GenerateXORCheckingData (some bytes)).1 :=
  Generate_flip_ne bytes p b hL (Nat.lt_trans hp hL) hb

theorem C12_first_block_bit_flip_detected_witness :
    BLOCKSIZE < (List.replicate 90 (0x30 : Byte)).length ∧ 5 < BLOCKSIZE ∧ 7 < 8 ∧
      (GenerateXORCheckingData (some (flipFileBit (List.replicate 90 0x30) 5 7))).1 ≠
        (GenerateXORCheckingData (some (List.replicate 90 0x30))).1 :=
  ⟨by simp only [List.length_replicate]; decide, by decide, by decide,
    C12_first_block_bit_flip_detected _ 5 7 (by simp only [List.length_replicate]; decide)
      (by decide) (by decide)⟩

/-- C18: single-bit flips anywhere are detected and localised. For every file of length `L > 64`,
every byte position `p < L` and every bit position `b < 8`, flipping bit `b` of byte `p` leaves
the reduced block 64 bytes long and changes exactly one of its bits, bit `b` of byte `p mod 64`
(bit `k` of byte `i` is inverted when `i = p mod 64` and `k = b`, and unchanged otherwise), and
the checksum string changes. -/
theorem C18_bit_flip_localised (bytes : List Byte) (p b : Nat)
    (hL : BLOCKSIZE < bytes.length) (hp : p < bytes.length) (hb : b < 8) :
    (reducedBlock (flipFileBit bytes p b)).length = 64 ∧ (reducedBlock bytes).length = 64 ∧
      (∀ i k, i < 64 →
        ((reducedBlock (flipFileBit bytes p b)).getD i 0).val.testBit k =
          (((reducedBlock bytes).getD i 0).val.testBit k != decide (i = p % 64 ∧ k = b))) ∧
      (GenerateXORCheckingData (some (flipFileBit bytes p b))).1 ≠
        (GenerateXORCheckingData (some bytes)).1 := by
  have hL2 : BLOCKSIZE < (flipFileBit bytes p b).length := by
    rw [flipFileBit_length]; exact hL
  refine ⟨reducedBlock_length _ hL2, reducedBlock_length _ hL, ?_,
    Generate_flip_ne bytes p b hL hp hb⟩
  intro i k hi
  rw [reducedBlock_flip bytes i p b hL hi hp hb, Nat.testBit_xor]
  by_cases h : p % BLOCKSIZE = i
  · rw [if_pos h, Nat.one_shiftLeft, Nat.testBit_two_pow]
    have h' : i = p % 64 := h.symm
    by_cases hk : b = k
    · subst hk; simp [h']
    · have hk' : ¬ k = b := fun e => hk e.symm
      simp [h', hk, hk']
  · have h' : ¬ i = p % 64 := fun e => h e.symm
    rw [if_neg h]
    simp [h']

theorem C18_bit_flip_localised_witness :
    BLOCKSIZE < (List.replicate 200 (0x77 : Byte)).length ∧
      150 < (List.replicate 200 (0x77 : Byte)).length ∧ 3 < 8 ∧
      (reducedBlock (flipFileBit (List.replicate 200 0x77) 150 3)).length = 64 ∧
      (reducedBlock (List.replicate 200 0x77)).length = 64 ∧
      (∀ i k, i < 64 →
        ((reducedBlock (flipFileBit (List.replicate 200 0x77) 150 3)).getD i 0).val.testBit k =
          (((reducedBlock (List.replicate 200 0x77)).getD i 0).val.testBit k
            != decide (i = 150 % 64 ∧ k = 3))) ∧
      (GenerateXORCheckingData (some (flipFileBit (List.replicate 200 0x77) 150 3))).1 ≠
        (GenerateXORCheckingData (some (List.replicate 200 0x77))).1 :=
  ⟨by simp only [List.length_replicate]; decide, by simp only [List.length_replicate]; decide,
    by decide,
    C18_bit_flip_localised _ 150 3 (by simp only [List.length_replicate]; decide)
      (by simp only [List.length_replicate]; decide) (by decide)⟩

/-! ## Order of the blocks -/

theorem Byte.xor_right_comm (a b c : Byte) :
    Byte.xor (Byte.xor a b) c = Byte.xor (Byte.xor a c) b := by
  apply Fin.ext
  rw [Byte.xor_val, Byte.xor_val, Byte.xor_val, Byte.xor_val]
  ac_rfl

theorem DoXOR_right_comm (a b c : Block) : DoXOR (DoXOR a b) c = DoXOR (DoXOR a c) b := by
  induction a generalizing b c with
  | nil => simp [DoXOR]
  | cons x xs ih =>
    cases b with
    | nil => cases c <;> simp [DoXOR]
    | cons y ys =>
      cases c with
      | nil => simp [DoXOR]
      | cons z zs =>
        have h := ih ys zs
        simp only [DoXOR] at h ⊢
        simp only [List.zipWith_cons_cons, h, Byte.xor_right_comm x y z]

theorem ProcessFileBlocks_perm (blocks blocks' : List Block) (hperm : blocks.Perm blocks') :
    ProcessFileBlocks blocks = ProcessFileBlocks blocks' :=
  hperm.foldl_eq' (fun x _ y _ z => DoXOR_right_comm z x y) _

/-- C17: order insensitivity. For every sequence of blocks, of any lengths, and every permutation
of it, `ProcessFileBlocks` returns the same result block. Consequently two files made of the same
full 64-byte blocks in a different order, followed by the same last bytes (fewer than 64), have
the same length and, when that length exceeds 64, the same checksum string and status. -/
theorem C17_order_insensitive (blocks blocks' : List Block) (hperm : blocks.Perm blocks') :
    ProcessFileBlocks blocks = ProcessFileBlocks blocks' ∧
      ∀ tail : List Byte, (∀ b ∈ blocks, b.length = 64) → tail.length < 64 →
        64 < (blocks.flatten ++ tail).length →
        (blocks'.flatten ++ tail).length = (blocks.flatten ++ tail).length ∧
          GenerateXORCheckingData (some (blocks'.flatten ++ tail)) =
            GenerateXORCheckingData (some (blocks.flatten ++ tail)) := by
  refine ⟨ProcessFileBlocks_perm blocks blocks' hperm, ?_⟩
  intro tail hfull htail hL
  have hfull' : ∀ b ∈ blocks', b.length = BLOCKSIZE := fun b hb => hfull b (hperm.mem_iff.mpr hb)
  have hlen : (blocks'.flatten ++ tail).length = (blocks.flatten ++ tail).length := by
    rw [List.length_append, List.length_append, flatten_length_full _ hfull,
      flatten_length_full _ hfull', hperm.length_eq]
  have hL' : BLOCKSIZE < (blocks'.flatten ++ tail).length := by rw [hlen]; exact hL
  refine ⟨hlen, ?_⟩
  have h1 := Generate_large _ hL
  have h2 := Generate_large _ hL'
  have e1 := LoadFileBlocks_decomp blocks tail hfull htail hL
  have e2 := LoadFileBlocks_decomp blocks' tail hfull' htail hL'
  rw [LoadFileBlocks_large _ _ hL] at e1
  rw [LoadFileBlocks_large _ _ hL'] at e2
  simp only at e1 e2
  rw [h1, h2, e1, e2,
    ProcessFileBlocks_perm _ _ (List.Perm.append_right _ hperm)]

theorem C17_order_insensitive_witness :
    [List.replicate 64 (1 : Byte), List.replicate 64 2].Perm
        [List.replicate 64 2, List.replicate 64 1] ∧
      ProcessFileBlocks [List.replicate 64 1, List.replicate 64 2] =
        ProcessFileBlocks [List.replicate 64 2, List.replicate 64 1] ∧
      (∀ b ∈ [List.replicate 64 (1 : Byte), List.replicate 64 2], b.length = 64) ∧
      [(9 : Byte), 8, 7].length < 64 ∧
      64 < ([List.replicate 64 (1 : Byte), List.replicate 64 2].flatten ++ [9, 8, 7]).length ∧
      ([List.replicate 64 (2 : Byte), List.replicate 64 1].flatten ++ [9, 8, 7]).length =
        ([List.replicate 64 (1 : Byte), List.replicate 64 2].flatten ++ [9, 8, 7]).length ∧
      GenerateXORCheckingData
          (some ([List.replicate 64 2, List.replicate 64 1].flatten ++ [9, 8, 7])) =
        GenerateXORCheckingData
          (some ([List.replicate 64 1, List.replicate 64 2].flatten ++ [9, 8, 7])) :=
  ⟨List.Perm.swap _ _ _,
    (C17_order_insensitive _ _ (List.Perm.swap _ _ _)).1,
    by decide, by decide, by simp,
    (C17_order_insensitive _ _ (List.Perm.swap _ _ _)).2 [9, 8, 7] (by decide) (by decide)
      (by simp)⟩

end DoXORTool
